import Mathlib

/-
Verification development for the Gemini AICS chatbot server
(grouping-model v3.2, `server.js`).  JavaScript strings are modelled as
lists of Unicode code points; the platform functions
`String.prototype.normalize('NFKC')` and `String.prototype.toLowerCase`
are modelled character-wise, restricted to the tables the knowledge base
exercises: the halfwidth/fullwidth compatibility block (U+FF01..U+FF5E),
the ideographic space U+3000, and the ASCII simple case mapping.
-/

namespace AicsBot

/-- A JavaScript string, as its sequence of Unicode code points. -/
abbrev Str : Type := List Nat

/-- Code points of a Lean string literal, for writing concrete inputs. -/
def codes (s : String) : Str := s.data.map Char.toNat

/-- Model of NFKC on one code point: the fullwidth ASCII variants
U+FF01..U+FF5E map to U+21..U+7E and the ideographic space U+3000 maps
to U+20; other code points are left unchanged. -/
def nfkcCode (n : Nat) : Nat :=
  if 0xFF01 ≤ n ∧ n ≤ 0xFF5E then n - 0xFEE0
  else if n = 0x3000 then 0x20
  else n

/-- Model of `toLowerCase` on one code point (ASCII simple case map). -/
def lowerCode (n : Nat) : Nat :=
  if 0x41 ≤ n ∧ n ≤ 0x5A then n + 0x20 else n

/-- One code point of `normalizeString`: NFKC then lower-casing. -/
def normCode (n : Nat) : Nat := lowerCode (nfkcCode n)

/-- Model of `normalizeString` on an actual string
(`str.normalize('NFKC').toLowerCase()`, server.js line 16). -/
def normalizeString (s : Str) : Str := s.map normCode

/-- A JavaScript value as it may arrive in `req.body.message`. -/
inductive JsValue where
  | vstr (s : Str)
  | vnum (n : Int)
  | vbool (b : Bool)
  | vnull
  | vundefined
deriving DecidableEq

/-- Test `typeof v === 'string'`. -/
def jsIsString : JsValue → Bool
  | .vstr _ => true
  | _ => false

/-- Model of `normalizeString` on an arbitrary JavaScript value: the guard
`typeof str !== 'string'` (server.js line 14) returns the empty string
for every non-string input. -/
def normalizeStringJs : JsValue → Str
  | .vstr s => normalizeString s
  | _ => []

theorem normCode_idem (n : Nat) : normCode (normCode n) = normCode n := by
  unfold normCode nfkcCode lowerCode
  split_ifs <;> omega

theorem normalizeString_idem (s : Str) :
    normalizeString (normalizeString s) = normalizeString s := by
  induction s with
  | nil => rfl
  | cons a t ih =>
      simp only [normalizeString, List.map_cons] at ih ⊢
      rw [normCode_idem]
      exact congrArg _ (by simpa [normalizeString] using ih)

/-- Every code point of a normalized string is a fixed point of
`normCode`. -/
theorem mem_normalizeString_fixed {s : Str} {a : Nat}
    (h : a ∈ normalizeString s) : normCode a = a := by
  simp only [normalizeString, List.mem_map] at h
  obtain ⟨b, _, rfl⟩ := h
  exact normCode_idem b

theorem normalizeString_eq_self_of_fixed {s : Str}
    (h : ∀ a ∈ s, normCode a = a) : normalizeString s = s := by
  induction s with
  | nil => rfl
  | cons a t ih =>
      simp only [normalizeString, List.map_cons]
      rw [h a (by simp)]
      exact congrArg _ (ih fun b hb => h b (by simp [hb]))

/-- JavaScript whitespace (`\s`) on code points, restricted to the
characters that can reach the parser: ASCII whitespace, NBSP, the line
and paragraph separators, the ideographic space and the BOM. -/
def isWsCode (n : Nat) : Bool :=
  n = 9 || n = 10 || n = 11 || n = 12 || n = 13 || n = 32 ||
  n = 0xA0 || n = 0x2028 || n = 0x2029 || n = 0x3000 || n = 0xFEFF

/-- Model of `String.prototype.trim`: strip whitespace from both ends. -/
def trim (s : Str) : Str :=
  ((s.dropWhile isWsCode).reverse.dropWhile isWsCode).reverse

/-- Worker for splitting on runs of whitespace: `cur` is the code of the
current token, reversed. -/
def wsTokensAux : Str → Str → List Str
  | [], cur => if cur = [] then [] else [cur.reverse]
  | c :: rest, cur =>
      if isWsCode c then
        if cur = [] then wsTokensAux rest []
        else cur.reverse :: wsTokensAux rest []
      else wsTokensAux rest (c :: cur)

/-- Model of `s.split(/\s+/)` as applied to an already trimmed string: the list
of maximal whitespace-free runs (and `[""]` on the empty string, as in
JavaScript). -/
def splitWs (s : Str) : List Str :=
  if s = [] then [[]] else wsTokensAux s []

/-- Worker for `split(/[,，]/)`. -/
def splitCommaAux : Str → Str → List Str
  | [], cur => [cur.reverse]
  | c :: rest, cur =>
      if c = 44 ∨ c = 0xFF0C then cur.reverse :: splitCommaAux rest []
      else splitCommaAux rest (c :: cur)

/-- Model of `s.split(/[,，]/)`: split at every halfwidth or fullwidth comma,
keeping empty pieces. -/
def splitComma (s : Str) : List Str := splitCommaAux s []

/-- Model of `Array.prototype.join(sep)`. -/
def joinWith (sep : Str) (l : List Str) : Str := (List.intersperse sep l).flatten

/-- Model of `join(' ')`. -/
def joinSpace (l : List Str) : Str := joinWith (codes (" ")) l

/-- Model of `join(', ')`. -/
def joinCommaSpace (l : List Str) : Str := joinWith (codes (", ")) l

/-- One keyword group of the knowledge base: a list of synonyms sharing
one canned response. -/
structure KeywordGroup where
  synonyms : List Str
  response : Str
deriving DecidableEq

/-- The knowledge base root object. -/
structure KnowledgeBase where
  keyword_groups : List KeywordGroup
  system_prompt : Str
  developer_prompt : Str
deriving DecidableEq

/-- Some group of the list owns the string `s` as a literal synonym. -/
def ownedIn (gs : List KeywordGroup) (s : Str) : Prop :=
  ∃ g ∈ gs, s ∈ g.synonyms

/-- Some group of the knowledge base owns the string `s`. -/
def ownedN (kb : KnowledgeBase) (s : Str) : Prop :=
  ownedIn kb.keyword_groups s

instance (gs : List KeywordGroup) (s : Str) : Decidable (ownedIn gs s) := by
  unfold ownedIn; infer_instance

instance (kb : KnowledgeBase) (s : Str) : Decidable (ownedN kb s) := by
  unfold ownedN; infer_instance

/-- Model of `Array.prototype.indexOf` restricted to present elements: position
of the first occurrence (list length when absent). -/
def idxOf (a : Str) : List Str → Nat
  | [] => 0
  | b :: rest => if b = a then 0 else idxOf a rest + 1

/-- Worker for `findKeyword`: scan the groups in order for one whose
`synonyms` contains the already-normalized keyword, returning the group
index and the synonym's index inside the group. -/
def findKeywordAux (nk : Str) : List KeywordGroup → Option (Nat × Nat)
  | [] => none
  | g :: rest =>
      if nk ∈ g.synonyms then some (0, idxOf nk g.synonyms)
      else (findKeywordAux nk rest).map (fun p => (p.1 + 1, p.2))

/-- Model of `findKeyword` (server.js lines 77-85): normalize the phrase and
linear-scan the groups for the first one containing it. -/
def findKeyword (kb : KnowledgeBase) (keyword : Str) : Option (Nat × Nat) :=
  findKeywordAux (normalizeString keyword) kb.keyword_groups

theorem findKeywordAux_eq_none_iff (nk : Str) (gs : List KeywordGroup) :
    findKeywordAux nk gs = none ↔ ∀ g ∈ gs, nk ∉ g.synonyms := by
  induction gs with
  | nil => simp [findKeywordAux]
  | cons g rest ih =>
      by_cases h : nk ∈ g.synonyms
      · simp [findKeywordAux, h]
      · simp [findKeywordAux, h, Option.map_eq_none', ih]

theorem findKeyword_eq_none_iff (kb : KnowledgeBase) (k : Str) :
    findKeyword kb k = none ↔ ¬ ownedN kb (normalizeString k) := by
  unfold findKeyword ownedN ownedIn
  rw [findKeywordAux_eq_none_iff]
  constructor
  · rintro h ⟨g, hg, hs⟩; exact h g hg hs
  · intro h g hg hs; exact h ⟨g, hg, hs⟩

theorem idxOf_getElem? {a : Str} {l : List Str} (h : a ∈ l) :
    l[idxOf a l]? = some a := by
  induction l with
  | nil => cases h
  | cons b rest ih =>
      by_cases hb : b = a
      · simp [idxOf, hb]
      · have : a ∈ rest := by
          rcases List.mem_cons.mp h with h' | h'
          · exact absurd h'.symm hb
          · exact h'
        simp [idxOf, hb, ih this]

theorem findKeywordAux_some {nk : Str} {gs : List KeywordGroup}
    {gi ki : Nat} (h : findKeywordAux nk gs = some (gi, ki)) :
    ∃ g, gs[gi]? = some g ∧ nk ∈ g.synonyms ∧ g.synonyms[ki]? = some nk := by
  induction gs generalizing gi ki with
  | nil => simp [findKeywordAux] at h
  | cons g rest ih =>
      by_cases hmem : nk ∈ g.synonyms
      · simp only [findKeywordAux, if_pos hmem, Option.some.injEq,
          Prod.mk.injEq] at h
        obtain ⟨h1, h2⟩ := h
        exact ⟨g, by simp [← h1], hmem, by rw [← h2]; exact idxOf_getElem? hmem⟩
      · simp only [findKeywordAux, if_neg hmem] at h
        match hrec : findKeywordAux nk rest with
        | none => rw [hrec] at h; simp at h
        | some (gj, kj) =>
            rw [hrec] at h
            simp only [Option.map_some', Option.some.injEq, Prod.mk.injEq] at h
            obtain ⟨g', hg', hmem', hk'⟩ := ih hrec
            refine ⟨g', ?_, hmem', by rw [← h.2]; exact hk'⟩
            rw [← h.1]
            simpa using hg'

theorem findKeyword_some {kb : KnowledgeBase} {k : Str} {gi ki : Nat}
    (h : findKeyword kb k = some (gi, ki)) :
    ∃ g, kb.keyword_groups[gi]? = some g ∧ normalizeString k ∈ g.synonyms ∧
      g.synonyms[ki]? = some (normalizeString k) :=
  findKeywordAux_some h

/-- The static command list (server.js lines 68-75). -/
def COMMAND_LIST : Str :=
  codes ("可用指令 (群組模型 v3.2)：\n- /add <關鍵字> <回應>\n- /delete <關鍵字>\n- /replace <任一關鍵字> <新回應>\n- /alias <任一關鍵字> += <新同義詞1>,<新同義詞2>...\n- /list\n- /help\n- /小凱bye")

/-- Reply of a command, the knowledge base after it, and whether
`saveKnowledgeBase` was invoked. -/
structure CmdResult where
  reply : Str
  kb : KnowledgeBase
  saved : Bool
deriving DecidableEq

/-- The fixed failure reply used when `saveKnowledgeBase` returns
false. -/
def saveFailMsg : Str := codes ("儲存知識庫失敗。")

def addUsageMsg : Str := codes ("格式錯誤。用法：/add <關鍵字> <回應內容>")

def addExistsMsg (keyword : Str) : Str :=
  codes ("新增失敗：「") ++ keyword ++ codes ("」已存在於某個群組中。")

def addSuccessMsg (keyword : Str) : Str :=
  codes ("已建立新的關鍵字群組：「") ++ keyword ++ codes ("」。")

def deleteUsageMsg : Str := codes ("格式錯誤。用法：/delete <關鍵字>")

def deleteNotFoundMsg (keyword : Str) : Str :=
  codes ("刪除失敗：關鍵字「") ++ keyword ++ codes ("」不存在。")

def deleteGroupMsg (keyword : Str) : Str :=
  codes ("已刪除關鍵字「") ++ keyword ++ codes ("」並移除了其空的群組。")

def deleteKeywordMsg (keyword : Str) : Str :=
  codes ("已從群組中刪除關鍵字：「") ++ keyword ++ codes ("」。")

def replaceUsageMsg : Str := codes ("格式錯誤。用法：/replace <任一關鍵字> <新的回應內容>")

def replaceNotFoundMsg (keyword : Str) : Str :=
  codes ("替換失敗：關鍵字「") ++ keyword ++ codes ("」不存在。")

def replaceSuccessMsg (synonyms : List Str) : Str :=
  codes ("已更新「") ++ joinCommaSpace synonyms ++ codes ("」群組的回應。")

def aliasUsageMsg : Str := codes ("格式錯誤。用法：/alias <任一關鍵字> += <新同義詞1>...")

def aliasNotFoundMsg (keyword : Str) : Str :=
  codes ("新增同義詞失敗：關鍵字「") ++ keyword ++ codes ("」不存在。")

def aliasEmptyMsg : Str := codes ("格式錯誤：請提供要新增的同義詞。")

def unknownCmdMsg (command : Str) : Str :=
  codes ("未知指令：") ++ command ++ codes ("。請輸入 /help 查看可用指令。")

/-- Append a new synonym to the synonym list of the group at index `gi`
(the push on `found.group.synonyms`, server.js line 143). -/
def pushSyn (kb : KnowledgeBase) (gi : Nat) (a : Str) : KnowledgeBase :=
  match kb.keyword_groups[gi]? with
  | some g =>
      { kb with keyword_groups :=
          kb.keyword_groups.set gi ⟨g.synonyms ++ [a], g.response⟩ }
  | none => kb

/-- The `for (const alias of aliasesToAdd)` loop of the `/alias` case
(server.js lines 141-144): returns the knowledge base after the loop
together with the `added` and `skipped` lists. -/
def aliasLoop (kb : KnowledgeBase) (gi : Nat) :
    List Str → KnowledgeBase × List Str × List Str
  | [] => (kb, [], [])
  | a :: rest =>
      if (findKeyword kb a).isSome then
        let r := aliasLoop kb gi rest
        (r.1, r.2.1, a :: r.2.2)
      else
        let r := aliasLoop (pushSyn kb gi a) gi rest
        (r.1, a :: r.2.1, r.2.2)

/-- The value `found.group.synonyms[0]` as read after the loop. -/
def groupHeadOf (kb : KnowledgeBase) (gi : Nat) : Str :=
  ((kb.keyword_groups.getD gi ⟨[], []⟩).synonyms).headD []

/-- The reply string assembled by the `/alias` case
(server.js lines 145-148). -/
def renderAliasReply (added skipped : List Str) (head : Str) : Str :=
  let r1 :=
    if added = [] then []
    else codes ("已新增同義詞：") ++ joinCommaSpace added ++ codes (" 至「") ++
      head ++ codes ("」群組。")
  let r2 :=
    if skipped = [] then r1
    else r1 ++ codes ("\n已跳過（重複）：") ++ joinCommaSpace skipped ++ codes ("。")
  if r2 = [] then codes ("沒有可新增的同義詞。") else r2

/-- The `/add` case (server.js lines 97-106). -/
def addCase (saveOk : Bool) (parts : List Str) (kb : KnowledgeBase) :
    CmdResult :=
  let args := parts.tail
  if args.length < 2 then ⟨addUsageMsg, kb, false⟩
  else
    let keyword := args.headD []
    let response := joinSpace (parts.drop 2)
    if (findKeyword kb keyword).isSome then ⟨addExistsMsg keyword, kb, false⟩
    else
      ⟨if saveOk then addSuccessMsg keyword else saveFailMsg,
       { kb with keyword_groups := kb.keyword_groups ++ [⟨[keyword], response⟩] },
       true⟩

/-- The `/delete` case (server.js lines 108-119); the `if (!found)`
truthiness test becomes a test against `none`. -/
def deleteCase (saveOk : Bool) (parts : List Str) (kb : KnowledgeBase) :
    CmdResult :=
  let args := parts.tail
  if args.length ≠ 1 then ⟨deleteUsageMsg, kb, false⟩
  else
    let keyword := args.headD []
    let found := findKeyword kb keyword
    if found = none then ⟨deleteNotFoundMsg keyword, kb, false⟩
    else
      let gi := (found.getD (0, 0)).1
      let ki := (found.getD (0, 0)).2
      let g := kb.keyword_groups.getD gi ⟨[], []⟩
      let syns := g.synonyms.eraseIdx ki
      if syns = [] then
        ⟨if saveOk then deleteGroupMsg keyword else saveFailMsg,
         { kb with keyword_groups := kb.keyword_groups.eraseIdx gi }, true⟩
      else
        ⟨if saveOk then deleteKeywordMsg keyword else saveFailMsg,
         { kb with keyword_groups :=
             kb.keyword_groups.set gi ⟨syns, g.response⟩ }, true⟩

/-- The `/replace` case (server.js lines 121-129). -/
def replaceCase (saveOk : Bool) (parts : List Str) (kb : KnowledgeBase) :
    CmdResult :=
  let args := parts.tail
  if args.length < 2 then ⟨replaceUsageMsg, kb, false⟩
  else
    let keyword := args.headD []
    let response := joinSpace (parts.drop 2)
    let found := findKeyword kb keyword
    if found = none then ⟨replaceNotFoundMsg keyword, kb, false⟩
    else
      let gi := (found.getD (0, 0)).1
      let g := kb.keyword_groups.getD gi ⟨[], []⟩
      ⟨if saveOk then replaceSuccessMsg g.synonyms else saveFailMsg,
       { kb with keyword_groups :=
           kb.keyword_groups.set gi ⟨g.synonyms, response⟩ }, true⟩

/-- The `aliasesToAdd` list of the `/alias` case (server.js line 138):
split the raw synonym text on commas, trim and normalize each piece,
drop the empty ones. -/
def aliasesOf (raw : Str) : List Str :=
  ((splitComma raw).map (fun a => normalizeString (trim a))).filter
    (fun a => !(a == []))

/-- The `/alias` case (server.js lines 131-149); `indexOf('+=') < 0`
becomes a test against `none`.  Note that the save result is discarded:
the reply does not depend on it. -/
def aliasCase (parts : List Str) (kb : KnowledgeBase) : CmdResult :=
  let args := parts.tail
  let opIdx := args.findIdx? (fun t => t == codes ("+="))
  if opIdx = none then ⟨aliasUsageMsg, kb, false⟩
  else
    let idx := opIdx.getD 0
    let existingKeyword := joinSpace (args.take idx)
    let found := findKeyword kb existingKeyword
    if found = none then ⟨aliasNotFoundMsg existingKeyword, kb, false⟩
    else
      let gi := (found.getD (0, 0)).1
      let aliasesToAdd := aliasesOf (joinSpace (args.drop (idx + 1)))
      if aliasesToAdd = [] then ⟨aliasEmptyMsg, kb, false⟩
      else
        let r := aliasLoop kb gi aliasesToAdd
        ⟨renderAliasReply r.2.1 r.2.2 (groupHeadOf r.1 gi), r.1,
         !r.2.1.isEmpty⟩

/-- Decimal rendering of a number, for the `/list` output. -/
def natDigits (n : Nat) : Str :=
  if h : n < 10 then [48 + n]
  else natDigits (n / 10) ++ [48 + n % 10]
decreasing_by exact Nat.div_lt_self (by omega) (by omega)

/-- The `/list` case (server.js lines 151-157). -/
def listCase (kb : KnowledgeBase) : CmdResult :=
  ⟨codes ("--- 知識庫列表 (群組模型) ---\n") ++
    (kb.keyword_groups.enum.map (fun p =>
      codes ("\n[群組 ") ++ natDigits (p.1 + 1) ++ codes ("]\n  關鍵字: ") ++
      joinCommaSpace p.2.synonyms ++ codes ("\n  回應: ") ++ p.2.response ++
      codes ("\n"))).flatten,
   kb, false⟩

/-- The `switch (command)` dispatch of `handleCommand`
(server.js lines 93-161), over the whitespace-split parts of the
normalized message. -/
def dispatch (saveOk : Bool) (parts : List Str) (kb : KnowledgeBase) :
    CmdResult :=
  let command := parts.headD []
  if command = codes ("/help") then ⟨COMMAND_LIST, kb, false⟩
  else if command = codes ("/add") then addCase saveOk parts kb
  else if command = codes ("/delete") then deleteCase saveOk parts kb
  else if command = codes ("/replace") then replaceCase saveOk parts kb
  else if command = codes ("/alias") then aliasCase parts kb
  else if command = codes ("/list") then listCase kb
  else ⟨unknownCmdMsg command, kb, false⟩

/-- The parts of a raw message as `handleCommand` computes them
(server.js lines 88-91): normalize, trim, split on whitespace runs. -/
def cmdParts (raw : Str) : List Str := splitWs (trim (normalizeString raw))

/-- Model of `handleCommand` (server.js lines 87-162), with the outcome of
`saveKnowledgeBase` supplied as the `saveOk` parameter. -/
def handleCommand (saveOk : Bool) (raw : Str) (kb : KnowledgeBase) :
    CmdResult :=
  dispatch saveOk (cmdParts raw) kb

/-- The process-wide state the chat route reads and writes: the
developer-mode flag and the in-memory knowledge base. -/
structure ServerState where
  developerMode : Bool
  kb : KnowledgeBase
deriving DecidableEq

/-- Initial value of the `developerMode` flag (server.js line 10). -/
def initialDeveloperMode : Bool := false

/-- What the route sends back: either a direct reply, or a call to the
external language model with the composed prompt. -/
inductive ChatReply where
  | direct (reply : Str)
  | fallback (prompt : Str)
deriving DecidableEq

/-- Outcome of one `/api/chat` request: the reply action, the state
after the request, and whether `saveKnowledgeBase` was invoked. -/
structure ChatResult where
  reply : ChatReply
  state : ServerState
  saved : Bool
deriving DecidableEq

/-- The developer-mode activation sentinel (server.js line 171). -/
def sentinelOn : Str := codes ("/呼叫小凱")

/-- The developer-mode deactivation sentinel (server.js line 176). -/
def sentinelOff : Str := codes ("/小凱bye")

/-- Reply to the activation sentinel (server.js line 174). -/
def greetingReply : Str :=
  codes ("小凱在，開發者模式已經開啟。\n\n") ++ COMMAND_LIST

/-- Reply to the deactivation sentinel (server.js line 179). -/
def farewellReply : Str := codes ("開發者模式已關閉。小凱下次見！")

/-- The fixed permission-denied reply (server.js line 187). -/
def permissionDeniedMsg : Str := codes ("權限不足。請先呼叫小凱啟用開發者模式。")

/-- The prompt composed for the external language model
(server.js lines 199-200). -/
def aiPrompt (st : ServerState) (raw : Str) : Str :=
  (if st.developerMode then st.kb.developer_prompt else st.kb.system_prompt) ++
    codes ("\n\n顧客問題：") ++ raw

/-- Whether a group's synonym set contains the normalized message
(the predicate of the `.find` on server.js line 190). -/
def synMatch (norm : Str) (g : KeywordGroup) : Bool := norm ∈ g.synonyms

/-- One `/api/chat` request (server.js lines 165-208): sentinel checks,
then the permission/command gate, then the exact group match, then the
external-AI fallback. -/
def chatPost (saveOk : Bool) (st : ServerState) (raw : Str) : ChatResult :=
  let norm := normalizeString raw
  if norm = sentinelOn then
    ⟨.direct greetingReply, ⟨true, st.kb⟩, false⟩
  else if norm = sentinelOff then
    ⟨.direct farewellReply, ⟨false, st.kb⟩, false⟩
  else if norm.head? = some 47 then
    if st.developerMode then
      let r := handleCommand saveOk raw st.kb
      ⟨.direct r.reply, ⟨st.developerMode, r.kb⟩, r.saved⟩
    else ⟨.direct permissionDeniedMsg, st, false⟩
  else
    match st.kb.keyword_groups.find? (synMatch norm) with
    | some g => ⟨.direct g.response, st, false⟩
    | none => ⟨.fallback (aiPrompt st raw), st, false⟩

/-- A sequence of operator commands run through the interpreter, each
with the outcome its `saveKnowledgeBase` call would have. -/
def runCommands (kb : KnowledgeBase) : List (Bool × Str) → KnowledgeBase
  | [] => kb
  | (saveOk, raw) :: rest => runCommands (handleCommand saveOk raw kb).kb rest

/-- Every synonym stored in the knowledge base is in normal form. -/
def SynNormalized (kb : KnowledgeBase) : Prop :=
  ∀ g ∈ kb.keyword_groups, ∀ s ∈ g.synonyms, normalizeString s = s

/-- Two groups share no synonym string. -/
def SynDisjoint (g1 g2 : KeywordGroup) : Prop :=
  ∀ s ∈ g1.synonyms, s ∉ g2.synonyms

/-- No synonym string appears in two different groups. -/
def GlobalUniq (kb : KnowledgeBase) : Prop :=
  kb.keyword_groups.Pairwise SynDisjoint

/-- The knowledge-base invariant: synonyms are stored normalized and no
synonym belongs to two groups. -/
def WellFormedKB (kb : KnowledgeBase) : Prop :=
  SynNormalized kb ∧ GlobalUniq kb

instance (g1 g2 : KeywordGroup) : Decidable (SynDisjoint g1 g2) := by
  unfold SynDisjoint; infer_instance

instance (kb : KnowledgeBase) : Decidable (SynNormalized kb) := by
  unfold SynNormalized; infer_instance

instance (kb : KnowledgeBase) : Decidable (GlobalUniq kb) := by
  unfold GlobalUniq; infer_instance

instance (kb : KnowledgeBase) : Decidable (WellFormedKB kb) := by
  unfold WellFormedKB; infer_instance

theorem mem_of_mem_wsTokensAux {s cur : Str} {t : Str} {a : Nat}
    (ht : t ∈ wsTokensAux s cur) (ha : a ∈ t) : a ∈ s ∨ a ∈ cur := by
  induction s generalizing cur with
  | nil =>
      simp only [wsTokensAux] at ht
      split at ht
      · simp at ht
      · simp only [List.mem_singleton] at ht
        subst ht
        exact Or.inr (List.mem_reverse.mp ha)
  | cons c rest ih =>
      simp only [wsTokensAux] at ht
      split at ht
      · split at ht
        · rcases ih ht with h | h
          · exact Or.inl (List.mem_cons_of_mem _ h)
          · simp at h
        · rcases List.mem_cons.mp ht with h | h
          · subst h
            exact Or.inr (List.mem_reverse.mp ha)
          · rcases ih h with h' | h'
            · exact Or.inl (List.mem_cons_of_mem _ h')
            · simp at h'
      · rcases ih ht with h | h
        · exact Or.inl (List.mem_cons_of_mem _ h)
        · rcases List.mem_cons.mp h with h' | h'
          · exact Or.inl (h' ▸ List.mem_cons_self _ _)
          · exact Or.inr h'

theorem mem_of_mem_splitWs {s : Str} {t : Str} {a : Nat}
    (ht : t ∈ splitWs s) (ha : a ∈ t) : a ∈ s := by
  unfold splitWs at ht
  split at ht
  · simp only [List.mem_singleton] at ht
    subst ht; simp at ha
  · rcases mem_of_mem_wsTokensAux ht ha with h | h
    · exact h
    · simp at h

theorem mem_of_mem_trim {s : Str} {a : Nat} (h : a ∈ trim s) : a ∈ s := by
  unfold trim at h
  rw [List.mem_reverse] at h
  have h1 := (s.dropWhile isWsCode).reverse.dropWhile_sublist isWsCode
  have h2 : a ∈ (s.dropWhile isWsCode).reverse := h1.mem h
  rw [List.mem_reverse] at h2
  exact (s.dropWhile_sublist isWsCode).mem h2

/-- Every token `cmdParts` produces from a raw message is already in
normal form: normalization is idempotent code point by code point and
trimming/splitting only select code points. -/
theorem cmdParts_token_normalized {raw : Str} {t : Str}
    (ht : t ∈ cmdParts raw) : normalizeString t = t := by
  apply normalizeString_eq_self_of_fixed
  intro a ha
  have : a ∈ normalizeString raw :=
    mem_of_mem_trim (mem_of_mem_splitWs ht ha)
  exact mem_normalizeString_fixed this

/-- The predicate `SynNormalized` at the level of a group list. -/
def NormIn (gs : List KeywordGroup) : Prop :=
  ∀ g ∈ gs, ∀ s ∈ g.synonyms, normalizeString s = s

theorem synDisjoint_symm {g1 g2 : KeywordGroup} (h : SynDisjoint g1 g2) :
    SynDisjoint g2 g1 := by
  intro s hs2 hs1
  exact h s hs1 hs2

theorem mem_set_self {l : List KeywordGroup} {i : Nat} {x : KeywordGroup}
    (h : i < l.length) : x ∈ l.set i x := by
  rw [List.mem_iff_getElem?]
  exact ⟨i, List.getElem?_set_self (by simpa using h)⟩

theorem mem_of_getElem?_eq {l : List KeywordGroup} {i : Nat}
    {g : KeywordGroup} (h : l[i]? = some g) : g ∈ l :=
  List.mem_iff_getElem?.mpr ⟨i, h⟩

/-- Appending a group none of whose synonyms is owned anywhere keeps the
groups pairwise disjoint. -/
theorem uniq_append_new {gs : List KeywordGroup} {gNew : KeywordGroup}
    (h : gs.Pairwise SynDisjoint)
    (hnew : ∀ s ∈ gNew.synonyms, ¬ ownedIn gs s) :
    (gs ++ [gNew]).Pairwise SynDisjoint := by
  rw [List.pairwise_append]
  refine ⟨h, by simp, ?_⟩
  intro g hg b hb s hsg hsb
  rcases List.mem_singleton.mp hb with rfl
  exact hnew s hsb ⟨g, hg, hsg⟩

/-- Replacing the group at index `i` with one whose synonyms are either
old synonyms of that group or strings owned nowhere keeps the groups
pairwise disjoint. -/
theorem uniq_set_general {gs : List KeywordGroup} {i : Nat}
    {g g' : KeywordGroup} (h : gs.Pairwise SynDisjoint)
    (hget : gs[i]? = some g)
    (hsub : ∀ s ∈ g'.synonyms, s ∈ g.synonyms ∨ ¬ ownedIn gs s) :
    (gs.set i g').Pairwise SynDisjoint := by
  induction gs generalizing i with
  | nil => simp
  | cons g0 rest ih =>
      rcases List.pairwise_cons.mp h with ⟨hhead, htail⟩
      match i with
      | 0 =>
          simp only [List.getElem?_cons_zero, Option.some.injEq] at hget
          subst hget
          rw [List.set_cons_zero, List.pairwise_cons]
          refine ⟨?_, htail⟩
          intro x hx s hsg' hsx
          rcases hsub s hsg' with hold | hnot
          · exact hhead x hx s hold hsx
          · exact hnot ⟨x, List.mem_cons_of_mem _ hx, hsx⟩
      | j + 1 =>
          simp only [List.getElem?_cons_succ] at hget
          rw [List.set_cons_succ, List.pairwise_cons]
          constructor
          · intro x hx
            rcases List.mem_or_eq_of_mem_set hx with hmem | rfl
            · exact hhead x hmem
            · intro s hs0 hsx
              rcases hsub s hsx with hold | hnot
              · exact hhead g (mem_of_getElem?_eq hget) s hs0 hold
              · exact hnot ⟨g0, List.mem_cons_self _ _, hs0⟩
          · refine ih htail hget ?_
            intro s hs
            rcases hsub s hs with hold | hnot
            · exact Or.inl hold
            · refine Or.inr ?_
              rintro ⟨x, hx, hsx⟩
              exact hnot ⟨x, List.mem_cons_of_mem _ hx, hsx⟩

theorem normIn_set {gs : List KeywordGroup} {i : Nat} {g' : KeywordGroup}
    (h : NormIn gs) (hg' : ∀ s ∈ g'.synonyms, normalizeString s = s) :
    NormIn (gs.set i g') := by
  intro x hx
  rcases List.mem_or_eq_of_mem_set hx with hmem | rfl
  · exact h x hmem
  · exact hg'

theorem normIn_append {gs : List KeywordGroup} {gNew : KeywordGroup}
    (h : NormIn gs) (hg' : ∀ s ∈ gNew.synonyms, normalizeString s = s) :
    NormIn (gs ++ [gNew]) := by
  intro x hx
  rcases List.mem_append.mp hx with hmem | hmem
  · exact h x hmem
  · rcases List.mem_singleton.mp hmem with rfl
    exact hg'

theorem normIn_sublist {gs gs' : List KeywordGroup}
    (hsub : gs'.Sublist gs) (h : NormIn gs) : NormIn gs' :=
  fun x hx => h x (hsub.mem hx)

/-- Ownership `ownedN` is preserved when a synonym is pushed onto some group. -/
theorem ownedN_pushSyn_of {kb : KnowledgeBase} {gi : Nat} {a s : Str}
    (h : ownedN kb s) : ownedN (pushSyn kb gi a) s := by
  unfold pushSyn
  match hget : kb.keyword_groups[gi]? with
  | none => exact h
  | some g =>
      obtain ⟨x, hx, hsx⟩ := h
      rw [List.mem_iff_getElem?] at hx
      obtain ⟨j, hj⟩ := hx
      by_cases hij : gi = j
      · subst hij
        rw [hget] at hj
        rcases Option.some.injEq .. ▸ hj with rfl
        refine ⟨⟨g.synonyms ++ [a], g.response⟩, ?_, by simp [hsx]⟩
        exact mem_set_self (by
          rcases List.getElem?_eq_some.mp hget with ⟨hlt, _⟩
          simpa using hlt)
      · refine ⟨x, ?_, hsx⟩
        rw [List.mem_iff_getElem?]
        exact ⟨j, by rw [List.getElem?_set_ne hij]; exact hj⟩

/-- After pushing `a` onto the (existing) group at `gi`, `a` is owned. -/
theorem ownedN_pushSyn_self {kb : KnowledgeBase} {gi : Nat} {a : Str}
    {g : KeywordGroup} (hget : kb.keyword_groups[gi]? = some g) :
    ownedN (pushSyn kb gi a) a := by
  unfold pushSyn
  rw [hget]
  refine ⟨⟨g.synonyms ++ [a], g.response⟩, ?_, by simp⟩
  exact mem_set_self (by
    rcases List.getElem?_eq_some.mp hget with ⟨hlt, _⟩
    simpa using hlt)

/-- Ownership in the pushed knowledge base decomposes. -/
theorem ownedN_pushSyn_iff {kb : KnowledgeBase} {gi : Nat} {a s : Str}
    {g : KeywordGroup} (hget : kb.keyword_groups[gi]? = some g) :
    ownedN (pushSyn kb gi a) s ↔ ownedN kb s ∨ s = a := by
  constructor
  · intro h
    unfold pushSyn at h
    rw [hget] at h
    obtain ⟨x, hx, hsx⟩ := h
    rcases List.mem_or_eq_of_mem_set hx with hmem | rfl
    · exact Or.inl ⟨x, hmem, hsx⟩
    · rcases List.mem_append.mp hsx with hold | hnew
      · exact Or.inl ⟨g, mem_of_getElem?_eq hget, hold⟩
      · exact Or.inr (List.mem_singleton.mp hnew)
  · rintro (h | rfl)
    · exact ownedN_pushSyn_of h
    · exact ownedN_pushSyn_self hget

theorem set_of_getElem?_eq {l : List KeywordGroup} {i : Nat}
    {g : KeywordGroup} (h : l[i]? = some g) : l.set i g = l := by
  induction l generalizing i with
  | nil => simp
  | cons x rest ih =>
      match i with
      | 0 =>
          simp only [List.getElem?_cons_zero, Option.some.injEq] at h
          rw [h, List.set_cons_zero]
      | j + 1 =>
          simp only [List.getElem?_cons_succ] at h
          rw [List.set_cons_succ, ih h]

theorem findKeyword_isSome_iff (kb : KnowledgeBase) (k : Str) :
    (findKeyword kb k).isSome = true ↔ ownedN kb (normalizeString k) := by
  constructor
  · intro hs
    by_contra hn
    rw [(findKeyword_eq_none_iff kb k).mpr hn] at hs
    simp at hs
  · intro h
    rcases hsome : findKeyword kb k with _ | p
    · exact absurd ((findKeyword_eq_none_iff kb k).mp hsome) (not_not_intro h)
    · simp

theorem pushSyn_eq {kb : KnowledgeBase} {gi : Nat} {g : KeywordGroup}
    (hget : kb.keyword_groups[gi]? = some g) (a : Str) :
    pushSyn kb gi a =
      { kb with keyword_groups :=
          kb.keyword_groups.set gi ⟨g.synonyms ++ [a], g.response⟩ } := by
  unfold pushSyn
  rw [hget]

theorem pushSyn_getElem? {kb : KnowledgeBase} {gi : Nat} {g : KeywordGroup}
    (hget : kb.keyword_groups[gi]? = some g) (a : Str) :
    (pushSyn kb gi a).keyword_groups[gi]? =
      some ⟨g.synonyms ++ [a], g.response⟩ := by
  rw [pushSyn_eq hget]
  exact List.getElem?_set_self (by
    rcases List.getElem?_eq_some.mp hget with ⟨hlt, _⟩
    simpa using hlt)

/-- Structural characterization of the `/alias` loop: the loop only
extends the synonym list of the target group with the `added` strings,
every added string was listed and owned by no group beforehand, every
skipped string was listed and was either owned beforehand or added
earlier in the same loop, and every listed string is added or
skipped. -/
theorem aliasLoop_spec (as : List Str) :
    ∀ (kb : KnowledgeBase) (gi : Nat) (g : KeywordGroup),
    kb.keyword_groups[gi]? = some g →
    (∀ a ∈ as, normalizeString a = a) →
    ∃ added skipped,
      aliasLoop kb gi as =
        ({ kb with keyword_groups :=
            kb.keyword_groups.set gi ⟨g.synonyms ++ added, g.response⟩ },
         added, skipped) ∧
      (∀ a ∈ added, a ∈ as ∧ ¬ ownedN kb a) ∧
      (∀ a ∈ skipped, a ∈ as ∧ (ownedN kb a ∨ a ∈ added)) ∧
      (∀ a ∈ as, a ∈ added ∨ a ∈ skipped) := by
  induction as with
  | nil =>
      intro kb gi g hget _
      refine ⟨[], [], ?_, by simp, by simp, by simp⟩
      simp only [aliasLoop, List.append_nil]
      rw [set_of_getElem?_eq (by simpa using hget)]
  | cons a rest ih =>
      intro kb gi g hget hnorm
      have hna : normalizeString a = a := hnorm a (by simp)
      have hrest : ∀ b ∈ rest, normalizeString b = b :=
        fun b hb => hnorm b (by simp [hb])
      by_cases hOwned : ownedN kb a
      · have hsome : (findKeyword kb a).isSome = true := by
          rw [findKeyword_isSome_iff, hna]; exact hOwned
        obtain ⟨added, skipped, heq, hadd, hskip, hcov⟩ :=
          ih kb gi g hget hrest
        refine ⟨added, a :: skipped, ?_, ?_, ?_, ?_⟩
        · simp only [aliasLoop, hsome, if_true, heq]
        · intro b hb
          obtain ⟨h1, h2⟩ := hadd b hb
          exact ⟨by simp [h1], h2⟩
        · intro b hb
          rcases List.mem_cons.mp hb with rfl | hb'
          · exact ⟨by simp, Or.inl hOwned⟩
          · obtain ⟨h1, h2⟩ := hskip b hb'
            exact ⟨by simp [h1], h2⟩
        · intro b hb
          rcases List.mem_cons.mp hb with rfl | hb'
          · exact Or.inr (by simp)
          · rcases hcov b hb' with h | h
            · exact Or.inl h
            · exact Or.inr (by simp [h])
      · have hnone : findKeyword kb a = none := by
          rw [findKeyword_eq_none_iff, hna]; exact hOwned
        have hget1 := pushSyn_getElem? hget a
        obtain ⟨added, skipped, heq, hadd, hskip, hcov⟩ :=
          ih (pushSyn kb gi a) gi ⟨g.synonyms ++ [a], g.response⟩ hget1 hrest
        refine ⟨a :: added, skipped, ?_, ?_, ?_, ?_⟩
        · simp only [aliasLoop, hnone, Option.isSome_none, Bool.false_eq_true,
            if_false, heq]
          rw [pushSyn_eq hget]
          simp [List.set_set]
        · intro b hb
          rcases List.mem_cons.mp hb with rfl | hb'
          · exact ⟨by simp, hOwned⟩
          · obtain ⟨h1, h2⟩ := hadd b hb'
            refine ⟨by simp [h1], fun hc => h2 (ownedN_pushSyn_of hc)⟩
        · intro b hb
          obtain ⟨h1, h2⟩ := hskip b hb
          refine ⟨by simp [h1], ?_⟩
          rcases h2 with howned | hmem
          · rcases (ownedN_pushSyn_iff hget).mp howned with h | rfl
            · exact Or.inl h
            · exact Or.inr (by simp)
          · exact Or.inr (by simp [hmem])
        · intro b hb
          rcases List.mem_cons.mp hb with rfl | hb'
          · exact Or.inl (by simp)
          · rcases hcov b hb' with h | h
            · exact Or.inl (by simp [h])
            · exact Or.inr h

/-- A synonym that some group already owns is skipped at every one of
its occurrences in the alias list and never added. -/
theorem aliasLoop_count_owned (as : List Str) :
    ∀ (kb : KnowledgeBase) (gi : Nat) (a : Str), ownedN kb a →
    normalizeString a = a →
    (aliasLoop kb gi as).2.1.count a = 0 ∧
    (aliasLoop kb gi as).2.2.count a = as.count a := by
  induction as with
  | nil => intro kb gi a _ _; simp [aliasLoop]
  | cons b rest ih =>
      intro kb gi a hOwned hna
      by_cases hb : (findKeyword kb b).isSome = true
      · obtain ⟨h1, h2⟩ := ih kb gi a hOwned hna
        simp only [aliasLoop, hb, if_true]
        exact ⟨h1, by simp [List.count_cons, h2]⟩
      · have hba : b ≠ a := by
          rintro rfl
          exact hb ((findKeyword_isSome_iff kb b).mpr (by rwa [hna]))
        obtain ⟨h1, h2⟩ := ih (pushSyn kb gi b) gi a
          (ownedN_pushSyn_of hOwned) hna
        simp only [aliasLoop, hb, if_false]
        constructor
        · simpa [List.count_cons, hba] using h1
        · simpa [List.count_cons, hba] using h2

/-- A synonym owned by no group that occurs in the alias list is added
exactly once; all its other occurrences are skipped. -/
theorem aliasLoop_count_new (as : List Str) :
    ∀ (kb : KnowledgeBase) (gi : Nat) (g : KeywordGroup) (a : Str),
    kb.keyword_groups[gi]? = some g → ¬ ownedN kb a →
    normalizeString a = a → a ∈ as →
    (aliasLoop kb gi as).2.1.count a = 1 ∧
    (aliasLoop kb gi as).2.2.count a = as.count a - 1 := by
  induction as with
  | nil => intro kb gi g a _ _ _ hmem; cases hmem
  | cons b rest ih =>
      intro kb gi g a hget hnot hna hmem
      by_cases hba : b = a
      · subst hba
        have hnone : findKeyword kb b = none := by
          rw [findKeyword_eq_none_iff, hna]; exact hnot
        have hnb : (findKeyword kb b).isSome = true ↔ False := by
          simp [hnone]
        obtain ⟨h1, h2⟩ := aliasLoop_count_owned rest (pushSyn kb gi b) gi b
          (ownedN_pushSyn_self hget) hna
        simp only [aliasLoop, hnone, Option.isSome_none, Bool.false_eq_true,
          if_false]
        constructor
        · simp [List.count_cons, h1]
        · simp [List.count_cons, h2]
      · have hmem' : a ∈ rest := by
          rcases List.mem_cons.mp hmem with h | h
          · exact absurd h.symm hba
          · exact h
        by_cases hb : (findKeyword kb b).isSome = true
        · obtain ⟨h1, h2⟩ := ih kb gi g a hget hnot hna hmem'
          simp only [aliasLoop, hb, if_true]
          constructor
          · exact h1
          · simp [List.count_cons, hba, h2]
        · have hnot1 : ¬ ownedN (pushSyn kb gi b) a := by
            intro hc
            rcases (ownedN_pushSyn_iff hget).mp hc with h | rfl
            · exact hnot h
            · exact hba rfl
          obtain ⟨h1, h2⟩ := ih (pushSyn kb gi b) gi
            ⟨g.synonyms ++ [b], g.response⟩ a (pushSyn_getElem? hget b)
            hnot1 hna hmem'
          simp only [aliasLoop, hb, if_false]
          constructor
          · simp [List.count_cons, hba, h1]
          · simp [List.count_cons, hba, h2]

/-- Pushing an unowned, normalized synonym onto an existing group keeps
the knowledge base well-formed. -/
theorem wf_pushSyn {kb : KnowledgeBase} {gi : Nat} {a : Str}
    (hwf : WellFormedKB kb) (hnot : ¬ ownedN kb a)
    (hna : normalizeString a = a) : WellFormedKB (pushSyn kb gi a) := by
  obtain ⟨hnorm, huniq⟩ := hwf
  unfold pushSyn
  match hget : kb.keyword_groups[gi]? with
  | none => exact ⟨hnorm, huniq⟩
  | some g =>
      constructor
      · intro x hx
        rcases List.mem_or_eq_of_mem_set hx with hmem | rfl
        · exact hnorm x hmem
        · intro s hs
          rcases List.mem_append.mp hs with hold | hnew
          · exact hnorm g (mem_of_getElem?_eq hget) s hold
          · rcases List.mem_singleton.mp hnew with rfl
            exact hna
      · refine uniq_set_general huniq hget ?_
        intro s hs
        rcases List.mem_append.mp hs with hold | hnew
        · exact Or.inl hold
        · rcases List.mem_singleton.mp hnew with rfl
          exact Or.inr hnot

/-- The `/alias` loop keeps the knowledge base well-formed. -/
theorem aliasLoop_wf (as : List Str) :
    ∀ (kb : KnowledgeBase) (gi : Nat), WellFormedKB kb →
    (∀ a ∈ as, normalizeString a = a) →
    WellFormedKB (aliasLoop kb gi as).1 := by
  induction as with
  | nil => intro kb gi hwf _; exact hwf
  | cons a rest ih =>
      intro kb gi hwf hnorm
      have hna : normalizeString a = a := hnorm a (by simp)
      have hrest : ∀ b ∈ rest, normalizeString b = b :=
        fun b hb => hnorm b (by simp [hb])
      by_cases hb : (findKeyword kb a).isSome = true
      · simpa only [aliasLoop, hb, if_true] using ih kb gi hwf hrest
      · have hnot : ¬ ownedN kb a := by
          intro hc
          exact hb ((findKeyword_isSome_iff kb a).mpr (by rwa [hna]))
        simp only [aliasLoop, hb, if_false]
        exact ih (pushSyn kb gi a) gi (wf_pushSyn hwf hnot hna) hrest

/-- Every element of `aliasesOf raw` is in normal form. -/
theorem aliasesOf_normalized {raw : Str} {a : Str} (h : a ∈ aliasesOf raw) :
    normalizeString a = a := by
  unfold aliasesOf at h
  obtain ⟨hmem, _⟩ := List.mem_filter.mp h
  obtain ⟨b, _, rfl⟩ := List.mem_map.mp hmem
  exact normalizeString_idem (trim b)

/-- The first argument of a command is in normal form whenever all the
parts are. -/
theorem arg_normalized {parts : List Str}
    (hp : ∀ t ∈ parts, normalizeString t = t) :
    normalizeString (parts.tail.headD []) = parts.tail.headD [] := by
  rcases h : parts.tail with _ | ⟨a, rest⟩
  · rfl
  · exact hp a (List.mem_of_mem_tail (by rw [h]; simp))

theorem addCase_wf {saveOk : Bool} {parts : List Str} {kb : KnowledgeBase}
    (hp : ∀ t ∈ parts, normalizeString t = t) (hwf : WellFormedKB kb) :
    WellFormedKB (addCase saveOk parts kb).kb := by
  unfold addCase
  simp only [apply_ite CmdResult.kb]
  split_ifs with h1 h2
  · exact hwf
  · exact hwf
  · obtain ⟨hnorm, huniq⟩ := hwf
    have hkw := arg_normalized hp
    have hnot : ¬ ownedN kb (parts.tail.headD []) := by
      intro hc
      exact h2 ((findKeyword_isSome_iff kb _).mpr (by rwa [hkw]))
    constructor
    · refine normIn_append hnorm ?_
      intro s hs
      rcases List.mem_singleton.mp hs with rfl
      exact hkw
    · refine uniq_append_new huniq ?_
      intro s hs
      rcases List.mem_singleton.mp hs with rfl
      exact hnot

theorem deleteCase_wf {saveOk : Bool} {parts : List Str} {kb : KnowledgeBase}
    (hwf : WellFormedKB kb) :
    WellFormedKB (deleteCase saveOk parts kb).kb := by
  obtain ⟨hnorm, huniq⟩ := hwf
  unfold deleteCase
  simp only [apply_ite CmdResult.kb]
  split_ifs with h1 h2 h3
  · exact ⟨hnorm, huniq⟩
  · exact ⟨hnorm, huniq⟩
  · exact ⟨normIn_sublist (List.eraseIdx_sublist _ _) hnorm,
      List.Pairwise.sublist (List.eraseIdx_sublist _ _) huniq⟩
  · rcases Option.ne_none_iff_exists'.mp h2 with ⟨⟨gi, ki⟩, hfk⟩
    obtain ⟨g0, hget, _, _⟩ := findKeyword_some hfk
    have hgetD : kb.keyword_groups.getD ((findKeyword kb
        (parts.tail.headD [])).getD (0, 0)).1 ⟨[], []⟩ = g0 := by
      rw [hfk, Option.getD_some, List.getD_eq_getElem?_getD, hget]; rfl
    rw [hfk, Option.getD_some] at hgetD ⊢
    constructor
    · refine normIn_set hnorm ?_
      intro s hs
      rw [hgetD] at hs
      exact hnorm g0 (mem_of_getElem?_eq hget) s
        ((List.eraseIdx_sublist _ _).mem hs)
    · refine uniq_set_general huniq hget ?_
      intro s hs
      rw [hgetD] at hs
      exact Or.inl ((List.eraseIdx_sublist _ _).mem hs)

theorem replaceCase_wf {saveOk : Bool} {parts : List Str}
    {kb : KnowledgeBase} (hwf : WellFormedKB kb) :
    WellFormedKB (replaceCase saveOk parts kb).kb := by
  obtain ⟨hnorm, huniq⟩ := hwf
  unfold replaceCase
  simp only [apply_ite CmdResult.kb]
  split_ifs with h1 h2
  · exact ⟨hnorm, huniq⟩
  · exact ⟨hnorm, huniq⟩
  · rcases Option.ne_none_iff_exists'.mp h2 with ⟨⟨gi, ki⟩, hfk⟩
    obtain ⟨g0, hget, _, _⟩ := findKeyword_some hfk
    have hgetD : kb.keyword_groups.getD ((findKeyword kb
        (parts.tail.headD [])).getD (0, 0)).1 ⟨[], []⟩ = g0 := by
      rw [hfk, Option.getD_some, List.getD_eq_getElem?_getD, hget]; rfl
    rw [hfk, Option.getD_some] at hgetD ⊢
    constructor
    · refine normIn_set hnorm ?_
      intro s hs
      rw [hgetD] at hs
      exact hnorm g0 (mem_of_getElem?_eq hget) s hs
    · refine uniq_set_general huniq hget ?_
      intro s hs
      rw [hgetD] at hs
      exact Or.inl hs

theorem aliasCase_wf {parts : List Str} {kb : KnowledgeBase}
    (hwf : WellFormedKB kb) : WellFormedKB (aliasCase parts kb).kb := by
  unfold aliasCase
  simp only [apply_ite CmdResult.kb]
  split_ifs with h1 h2 h3
  · exact hwf
  · exact hwf
  · exact hwf
  · exact aliasLoop_wf _ kb _ hwf (fun a ha => aliasesOf_normalized ha)

/-- Every branch of the command dispatcher keeps the knowledge base
well-formed, provided the message parts are in normal form. -/
theorem dispatch_wf {saveOk : Bool} {parts : List Str} {kb : KnowledgeBase}
    (hp : ∀ t ∈ parts, normalizeString t = t) (hwf : WellFormedKB kb) :
    WellFormedKB (dispatch saveOk parts kb).kb := by
  unfold dispatch
  simp only [apply_ite CmdResult.kb]
  split_ifs
  · exact hwf
  · exact addCase_wf hp hwf
  · exact deleteCase_wf hwf
  · exact replaceCase_wf hwf
  · exact aliasCase_wf hwf
  · exact hwf
  · exact hwf

theorem handleCommand_wf {saveOk : Bool} {raw : Str} {kb : KnowledgeBase}
    (hwf : WellFormedKB kb) : WellFormedKB (handleCommand saveOk raw kb).kb :=
  dispatch_wf (fun _ ht => cmdParts_token_normalized ht) hwf

theorem dispatch_eq_add {saveOk : Bool} {parts : List Str}
    {kb : KnowledgeBase} (h : parts.headD [] = codes ("/add")) :
    dispatch saveOk parts kb = addCase saveOk parts kb := by
  unfold dispatch
  simp only [h]
  rw [if_neg (by decide), if_pos trivial]

theorem dispatch_eq_delete {saveOk : Bool} {parts : List Str}
    {kb : KnowledgeBase} (h : parts.headD [] = codes ("/delete")) :
    dispatch saveOk parts kb = deleteCase saveOk parts kb := by
  unfold dispatch
  simp only [h]
  rw [if_neg (by decide), if_neg (by decide), if_pos trivial]

theorem dispatch_eq_replace {saveOk : Bool} {parts : List Str}
    {kb : KnowledgeBase} (h : parts.headD [] = codes ("/replace")) :
    dispatch saveOk parts kb = replaceCase saveOk parts kb := by
  unfold dispatch
  simp only [h]
  rw [if_neg (by decide), if_neg (by decide), if_neg (by decide),
    if_pos trivial]

theorem dispatch_eq_alias {saveOk : Bool} {parts : List Str}
    {kb : KnowledgeBase} (h : parts.headD [] = codes ("/alias")) :
    dispatch saveOk parts kb = aliasCase parts kb := by
  unfold dispatch
  simp only [h]
  rw [if_neg (by decide), if_neg (by decide), if_neg (by decide),
    if_neg (by decide), if_pos trivial]


/-- C9: normalization is idempotent, and non-string input yields the
empty string. -/
theorem normalize_idempotent_and_nonstring :
    (∀ s : Str, normalizeString (normalizeString s) = normalizeString s) ∧
    (∀ v : JsValue, jsIsString v = false → normalizeStringJs v = []) := by
  constructor
  · exact normalizeString_idem
  · intro v hv
    cases v with
    | vstr s => simp [jsIsString] at hv
    | vnum n => rfl
    | vbool b => rfl
    | vnull => rfl
    | vundefined => rfl

theorem normalize_idempotent_witness :
    normalizeString (normalizeString (codes ("ＡＢc"))) =
      normalizeString (codes ("ＡＢc")) ∧
    jsIsString (JsValue.vnum 3) = false ∧
    normalizeStringJs (JsValue.vnum 3) = [] :=
  ⟨normalize_idempotent_and_nonstring.1 (codes ("ＡＢc")), by decide,
   normalize_idempotent_and_nonstring.2 (JsValue.vnum 3) (by decide)⟩

/-- The empty knowledge base, used for concrete runs. -/
def kbEmpty : KnowledgeBase := ⟨[], codes ("s"), codes ("d")⟩

/-- A one-group knowledge base, used for concrete runs. -/
def kbGreet : KnowledgeBase :=
  ⟨[⟨[codes ("greet")], codes ("old")⟩], codes ("s"), codes ("d")⟩

/-- C2 (code bug evidence): the /add and /replace handlers derive the
stored response from the normalized message, so original casing is
lost. -/
theorem add_stores_normalized_response :
    ((handleCommand true (codes ("/add greet Hello World"))
        kbEmpty).kb.keyword_groups.map (fun g => g.response)) =
      [codes ("hello world")] ∧
    ((handleCommand true (codes ("/replace greet New Text"))
        kbGreet).kb.keyword_groups.map (fun g => g.response)) =
      [codes ("new text")] ∧
    codes ("hello world") ≠ codes ("Hello World") := by decide

/-- C7: developer-mode lifecycle. -/
theorem developer_mode_lifecycle :
    initialDeveloperMode = false ∧
    (∀ (saveOk : Bool) (st : ServerState) (raw : Str),
      normalizeString raw = sentinelOn →
      chatPost saveOk st raw = ⟨.direct greetingReply, ⟨true, st.kb⟩, false⟩) ∧
    (∀ (saveOk : Bool) (st : ServerState) (raw : Str),
      normalizeString raw = sentinelOff →
      chatPost saveOk st raw = ⟨.direct farewellReply, ⟨false, st.kb⟩, false⟩) := by
  refine ⟨rfl, ?_, ?_⟩
  · intro saveOk st raw h
    simp [chatPost, h]
  · intro saveOk st raw h
    have hne : sentinelOff ≠ sentinelOn := by decide
    simp [chatPost, h, hne]

/-- C8: permission denial in normal mode. -/
theorem normal_mode_command_denied (saveOk : Bool) (st : ServerState)
    (raw : Str) (hm : st.developerMode = false)
    (h1 : normalizeString raw ≠ sentinelOn)
    (h2 : normalizeString raw ≠ sentinelOff)
    (h3 : (normalizeString raw).head? = some 47) :
    chatPost saveOk st raw = ⟨.direct permissionDeniedMsg, st, false⟩ := by
  simp [chatPost, h1, h2, h3, hm]

/-- C3: exact-match routing. -/
theorem keyword_exact_match (saveOk : Bool) (st : ServerState) (raw : Str)
    (h1 : normalizeString raw ≠ sentinelOn)
    (h2 : normalizeString raw ≠ sentinelOff)
    (h3 : ¬ (normalizeString raw).head? = some 47) :
    (∀ g, st.kb.keyword_groups.find? (synMatch (normalizeString raw)) =
        some g →
      chatPost saveOk st raw = ⟨.direct g.response, st, false⟩) ∧
    ((∀ g ∈ st.kb.keyword_groups, normalizeString raw ∉ g.synonyms) →
      chatPost saveOk st raw = ⟨.fallback (aiPrompt st raw), st, false⟩) := by
  constructor
  · intro g hg
    simp [chatPost, h1, h2, h3, hg]
  · intro hall
    have hfind : st.kb.keyword_groups.find? (synMatch (normalizeString raw))
        = none := by
      rw [List.find?_eq_none]
      intro g hg
      simp only [synMatch, decide_eq_true_eq]
      exact hall g hg
    simp [chatPost, h1, h2, h3, hfind]

def kbScenario : KnowledgeBase :=
  ⟨[⟨[codes ("退貨")], codes ("退貨政策...")⟩], codes ("sys"), codes ("dev")⟩

theorem developer_mode_lifecycle_witness :
    chatPost true ⟨false, kbGreet⟩ (codes ("/呼叫小凱")) =
      ⟨.direct greetingReply, ⟨true, kbGreet⟩, false⟩ ∧
    chatPost true ⟨true, kbGreet⟩ (codes ("/小凱BYE")) =
      ⟨.direct farewellReply, ⟨false, kbGreet⟩, false⟩ :=
  ⟨developer_mode_lifecycle.2.1 true ⟨false, kbGreet⟩ (codes ("/呼叫小凱"))
      (by decide),
   developer_mode_lifecycle.2.2 true ⟨true, kbGreet⟩ (codes ("/小凱BYE"))
      (by decide)⟩

theorem normal_mode_command_denied_witness :
    chatPost true ⟨false, kbGreet⟩ (codes ("/anything")) =
      ⟨.direct permissionDeniedMsg, ⟨false, kbGreet⟩, false⟩ :=
  normal_mode_command_denied true ⟨false, kbGreet⟩ (codes ("/anything"))
    rfl (by decide) (by decide) (by decide)

theorem keyword_exact_match_witness :
    chatPost true ⟨false, kbScenario⟩ (codes ("退貨")) =
      ⟨.direct (codes ("退貨政策...")), ⟨false, kbScenario⟩, false⟩ ∧
    codes ("我想退貨") = codes ("我想") ++ codes ("退貨") ∧
    chatPost true ⟨false, kbScenario⟩ (codes ("我想退貨")) =
      ⟨.fallback (aiPrompt ⟨false, kbScenario⟩ (codes ("我想退貨"))),
       ⟨false, kbScenario⟩, false⟩ :=
  ⟨(keyword_exact_match true ⟨false, kbScenario⟩ (codes ("退貨"))
      (by decide) (by decide) (by decide)).1
      ⟨[codes ("退貨")], codes ("退貨政策...")⟩ (by decide),
   by decide,
   (keyword_exact_match true ⟨false, kbScenario⟩ (codes ("我想退貨"))
      (by decide) (by decide) (by decide)).2 (by decide)⟩

theorem runCommands_wf : ∀ (msgs : List (Bool × Str)) (kb : KnowledgeBase),
    WellFormedKB kb → WellFormedKB (runCommands kb msgs)
  | [], _, h => h
  | (_, _) :: rest, _, h => runCommands_wf rest _ (handleCommand_wf h)

/-- C1: global synonym uniqueness is an invariant of command
sequences. -/
theorem global_synonym_uniqueness (kb : KnowledgeBase)
    (msgs : List (Bool × Str)) (h : WellFormedKB kb) :
    WellFormedKB (runCommands kb msgs) :=
  runCommands_wf msgs kb h

def kbTwo : KnowledgeBase :=
  ⟨[⟨[codes ("退貨")], codes ("退貨政策...")⟩,
    ⟨[codes ("退款")], codes ("退款說明")⟩], codes ("sys"), codes ("dev")⟩

def wMsgs : List (Bool × Str) :=
  [(true, codes ("/add 安裝 請參考安裝手冊")),
   (true, codes ("/alias 退貨 += 退款,退費")),
   (false, codes ("/delete 退款"))]

theorem global_synonym_uniqueness_witness :
    WellFormedKB kbTwo ∧ WellFormedKB (runCommands kbTwo wMsgs) :=
  ⟨by decide, global_synonym_uniqueness kbTwo wMsgs (by decide)⟩

/-- C6: /delete removes the found synonym, collapses the group when it
becomes empty (shrinking the group count by one), and fails leaving the
knowledge base unchanged on a wrong argument count or unknown
keyword. -/
theorem delete_behavior (saveOk : Bool) (raw : Str) (kb : KnowledgeBase)
    (hcmd : (cmdParts raw).headD [] = codes ("/delete")) :
    ((cmdParts raw).tail.length ≠ 1 →
      handleCommand saveOk raw kb = ⟨deleteUsageMsg, kb, false⟩) ∧
    ((cmdParts raw).tail.length = 1 →
      (findKeyword kb ((cmdParts raw).tail.headD []) = none →
        handleCommand saveOk raw kb =
          ⟨deleteNotFoundMsg ((cmdParts raw).tail.headD []), kb, false⟩) ∧
      (∀ gi ki,
        findKeyword kb ((cmdParts raw).tail.headD []) = some (gi, ki) →
        ∃ g, kb.keyword_groups[gi]? = some g ∧
          g.synonyms[ki]? =
            some (normalizeString ((cmdParts raw).tail.headD [])) ∧
          (g.synonyms.length = 1 →
            handleCommand saveOk raw kb =
              ⟨if saveOk then deleteGroupMsg ((cmdParts raw).tail.headD [])
                else saveFailMsg,
               { kb with keyword_groups := kb.keyword_groups.eraseIdx gi },
               true⟩ ∧
            (kb.keyword_groups.eraseIdx gi).length + 1 =
              kb.keyword_groups.length) ∧
          (g.synonyms.length ≠ 1 →
            handleCommand saveOk raw kb =
              ⟨if saveOk then deleteKeywordMsg ((cmdParts raw).tail.headD [])
                else saveFailMsg,
               { kb with keyword_groups := (kb.keyword_groups.set gi
                   ⟨g.synonyms.eraseIdx ki, g.response⟩) },
               true⟩))) := by
  have hd : handleCommand saveOk raw kb =
      deleteCase saveOk (cmdParts raw) kb := by
    unfold handleCommand
    exact dispatch_eq_delete hcmd
  constructor
  · intro hlen
    rw [hd]
    unfold deleteCase
    dsimp only
    rw [if_pos hlen]
  · intro hlen
    constructor
    · intro hfk
      rw [hd]
      unfold deleteCase
      dsimp only
      rw [if_neg (by simp [hlen]), if_pos hfk]
    · intro gi ki hfk
      obtain ⟨g, hget, hmem, hki⟩ := findKeyword_some hfk
      have hkilt : ki < g.synonyms.length := by
        rcases List.getElem?_eq_some.mp hki with ⟨h, _⟩
        exact h
      have hgilt : gi < kb.keyword_groups.length := by
        rcases List.getElem?_eq_some.mp hget with ⟨h, _⟩
        exact h
      refine ⟨g, hget, hki, ?_, ?_⟩
      · intro hlen1
        have hsyns : g.synonyms.eraseIdx ki = [] := by
          rw [← List.length_eq_zero, List.length_eraseIdx]
          simp only [hkilt, if_true]
          omega
        constructor
        · rw [hd]
          unfold deleteCase
          dsimp only
          rw [if_neg (by simp [hlen]), if_neg (by rw [hfk]; simp)]
          simp only [hfk, Option.getD_some]
          rw [List.getD_eq_getElem?_getD, hget]
          simp only [Option.getD_some]
          rw [if_pos hsyns]
        · rw [List.length_eraseIdx]
          simp only [hgilt, if_true]
          omega
      · intro hlen1
        have hsyns : g.synonyms.eraseIdx ki ≠ [] := by
          intro hc
          have hlen0 := congrArg List.length hc
          rw [List.length_eraseIdx] at hlen0
          simp only [hkilt, if_true] at hlen0
          simp at hlen0
          omega
        rw [hd]
        unfold deleteCase
        dsimp only
        rw [if_neg (by simp [hlen]), if_neg (by rw [hfk]; simp)]
        simp only [hfk, Option.getD_some]
        rw [List.getD_eq_getElem?_getD, hget]
        simp only [Option.getD_some]
        rw [if_neg hsyns]

theorem delete_behavior_witness :
    handleCommand true (codes ("/delete 退款")) kbTwo =
      ⟨deleteGroupMsg (codes ("退款")),
       { kbTwo with keyword_groups := kbTwo.keyword_groups.eraseIdx 1 },
       true⟩ ∧
    (kbTwo.keyword_groups.eraseIdx 1).length + 1 =
      kbTwo.keyword_groups.length := by
  have h := ((delete_behavior true (codes ("/delete 退款")) kbTwo
    (by decide)).2 (by decide)).2 1 0 (by decide)
  obtain ⟨g, hget, hki, hcase, _⟩ := h
  have hgv : kbTwo.keyword_groups[1]? =
      some ⟨[codes ("退款")], codes ("退款說明")⟩ := by decide
  rw [hgv] at hget
  rcases Option.some.inj hget with rfl
  obtain ⟨heq, hlen⟩ := hcase (by decide)
  exact ⟨by rw [heq]; decide, hlen⟩

theorem aliasCase_run {parts : List Str} {kb : KnowledgeBase}
    {idx gi ki : Nat}
    (hidx : parts.tail.findIdx? (fun t => t == codes ("+=")) = some idx)
    (hfk : findKeyword kb (joinSpace (parts.tail.take idx)) = some (gi, ki))
    (hne : aliasesOf (joinSpace (parts.tail.drop (idx + 1))) ≠ []) :
    aliasCase parts kb =
      ⟨renderAliasReply
          (aliasLoop kb gi
            (aliasesOf (joinSpace (parts.tail.drop (idx + 1))))).2.1
          (aliasLoop kb gi
            (aliasesOf (joinSpace (parts.tail.drop (idx + 1))))).2.2
          (groupHeadOf
            (aliasLoop kb gi
              (aliasesOf (joinSpace (parts.tail.drop (idx + 1))))).1 gi),
       (aliasLoop kb gi (aliasesOf (joinSpace (parts.tail.drop (idx + 1))))).1,
       !(aliasLoop kb gi
          (aliasesOf (joinSpace (parts.tail.drop (idx + 1))))).2.1.isEmpty⟩ := by
  unfold aliasCase
  dsimp only
  rw [if_neg (by rw [hidx]; simp)]
  simp only [hidx, Option.getD_some]
  rw [if_neg (by rw [hfk]; simp)]
  simp only [hfk, Option.getD_some]
  rw [if_neg hne]

theorem groupHeadOf_set {kb : KnowledgeBase} {gi : Nat} {g' : KeywordGroup}
    (hlt : gi < kb.keyword_groups.length) :
    groupHeadOf { kb with keyword_groups :=
        (kb.keyword_groups.set gi g') } gi = g'.synonyms.headD [] := by
  unfold groupHeadOf
  rw [List.getD_eq_getElem?_getD, List.getElem?_set_self (by simpa using hlt)]
  rfl

/-- C5: the /alias command fails as a whole exactly on a missing +=
token, an unknown target keyword, or an empty synonym list; otherwise
already-owned synonyms are skipped (and reported in the skipped part of
the reply) while the new ones are appended, normalized, to the target
group, which is the only change to the knowledge base. -/
theorem alias_behavior (saveOk : Bool) (raw : Str) (kb : KnowledgeBase)
    (hcmd : (cmdParts raw).headD [] = codes ("/alias")) :
    ((cmdParts raw).tail.findIdx? (fun t => t == codes ("+=")) = none →
      handleCommand saveOk raw kb = ⟨aliasUsageMsg, kb, false⟩) ∧
    (∀ idx,
      (cmdParts raw).tail.findIdx? (fun t => t == codes ("+=")) = some idx →
      (findKeyword kb (joinSpace ((cmdParts raw).tail.take idx)) = none →
        handleCommand saveOk raw kb =
          ⟨aliasNotFoundMsg (joinSpace ((cmdParts raw).tail.take idx)),
           kb, false⟩) ∧
      (∀ gi ki,
        findKeyword kb (joinSpace ((cmdParts raw).tail.take idx)) =
          some (gi, ki) →
        (aliasesOf (joinSpace ((cmdParts raw).tail.drop (idx + 1))) = [] →
          handleCommand saveOk raw kb = ⟨aliasEmptyMsg, kb, false⟩) ∧
        (aliasesOf (joinSpace ((cmdParts raw).tail.drop (idx + 1))) ≠ [] →
          ∃ g added skipped,
            kb.keyword_groups[gi]? = some g ∧
            (handleCommand saveOk raw kb).kb =
              { kb with keyword_groups := (kb.keyword_groups.set gi
                  ⟨g.synonyms ++ added, g.response⟩) } ∧
            (∀ a ∈ added,
              a ∈ aliasesOf (joinSpace ((cmdParts raw).tail.drop (idx + 1))) ∧
              ¬ ownedN kb a ∧ normalizeString a = a) ∧
            (∀ a ∈ skipped,
              a ∈ aliasesOf (joinSpace ((cmdParts raw).tail.drop (idx + 1))) ∧
              (ownedN kb a ∨ a ∈ added)) ∧
            (∀ a ∈ aliasesOf (joinSpace ((cmdParts raw).tail.drop (idx + 1))),
              a ∈ added ∨ a ∈ skipped) ∧
            (handleCommand saveOk raw kb).reply =
              renderAliasReply added skipped ((g.synonyms ++ added).headD []) ∧
            (handleCommand saveOk raw kb).saved = !added.isEmpty))) := by
  have hd : handleCommand saveOk raw kb =
      aliasCase (cmdParts raw) kb := by
    unfold handleCommand
    exact dispatch_eq_alias hcmd
  constructor
  · intro hnone
    rw [hd]
    unfold aliasCase
    dsimp only
    rw [if_pos hnone]
  · intro idx hidx
    constructor
    · intro hfknone
      rw [hd]
      unfold aliasCase
      dsimp only
      rw [if_neg (by rw [hidx]; simp)]
      simp only [hidx, Option.getD_some]
      rw [if_pos hfknone]
    · intro gi ki hfk
      constructor
      · intro hempty
        rw [hd]
        unfold aliasCase
        dsimp only
        rw [if_neg (by rw [hidx]; simp)]
        simp only [hidx, Option.getD_some]
        rw [if_neg (by rw [hfk]; simp)]
        simp only [hfk, Option.getD_some]
        rw [if_pos hempty]
      · intro hne
        obtain ⟨g, hget, hmem, hki⟩ := findKeyword_some hfk
        have hgilt : gi < kb.keyword_groups.length := by
          rcases List.getElem?_eq_some.mp hget with ⟨h, _⟩
          exact h
        obtain ⟨added, skipped, heq, hadd, hskip, hcov⟩ :=
          aliasLoop_spec
            (aliasesOf (joinSpace ((cmdParts raw).tail.drop (idx + 1))))
            kb gi g hget (fun a ha => aliasesOf_normalized ha)
        refine ⟨g, added, skipped, hget, ?_, ?_, hskip, hcov, ?_, ?_⟩
        · rw [hd, aliasCase_run hidx hfk hne, heq]
        · intro a ha
          obtain ⟨h1, h2⟩ := hadd a ha
          exact ⟨h1, h2, aliasesOf_normalized h1⟩
        · rw [hd, aliasCase_run hidx hfk hne, heq]
          dsimp only
          rw [groupHeadOf_set hgilt]
        · rw [hd, aliasCase_run hidx hfk hne, heq]

theorem alias_behavior_witness :
    ∃ g added skipped,
      kbTwo.keyword_groups[0]? = some g ∧
      (handleCommand true (codes ("/alias 退貨 += 退款,退費")) kbTwo).kb =
        { kbTwo with keyword_groups := (kbTwo.keyword_groups.set 0
            ⟨g.synonyms ++ added, g.response⟩) } ∧
      (∀ a ∈ added,
        a ∈ aliasesOf (joinSpace
          ((cmdParts (codes ("/alias 退貨 += 退款,退費"))).tail.drop (1 + 1))) ∧
        ¬ ownedN kbTwo a ∧ normalizeString a = a) ∧
      (∀ a ∈ skipped,
        a ∈ aliasesOf (joinSpace
          ((cmdParts (codes ("/alias 退貨 += 退款,退費"))).tail.drop (1 + 1))) ∧
        (ownedN kbTwo a ∨ a ∈ added)) ∧
      (∀ a ∈ aliasesOf (joinSpace
          ((cmdParts (codes ("/alias 退貨 += 退款,退費"))).tail.drop (1 + 1))),
        a ∈ added ∨ a ∈ skipped) ∧
      (handleCommand true (codes ("/alias 退貨 += 退款,退費")) kbTwo).reply =
        renderAliasReply added skipped ((g.synonyms ++ added).headD []) ∧
      (handleCommand true (codes ("/alias 退貨 += 退款,退費")) kbTwo).saved =
        !added.isEmpty :=
  (((alias_behavior true (codes ("/alias 退貨 += 退款,退費")) kbTwo
      (by decide)).2 1 (by decide)).2 0 0 (by decide)).2 (by decide)

/-- C10: within one /alias command a duplicated (not yet owned) synonym
is added exactly once and each of its later occurrences is skipped,
because each synonym is checked against the knowledge base as already
extended by the earlier additions of the same command. -/
theorem alias_duplicate_once (saveOk : Bool) (raw : Str) (kb : KnowledgeBase)
    (idx gi ki : Nat) (a : Str)
    (hcmd : (cmdParts raw).headD [] = codes ("/alias"))
    (hidx : (cmdParts raw).tail.findIdx? (fun t => t == codes ("+=")) =
      some idx)
    (hfk : findKeyword kb (joinSpace ((cmdParts raw).tail.take idx)) =
      some (gi, ki))
    (hmem : a ∈ aliasesOf (joinSpace ((cmdParts raw).tail.drop (idx + 1))))
    (hnew : ¬ ownedN kb a) :
    ∃ g added skipped,
      kb.keyword_groups[gi]? = some g ∧
      (handleCommand saveOk raw kb).kb =
        { kb with keyword_groups := (kb.keyword_groups.set gi
            ⟨g.synonyms ++ added, g.response⟩) } ∧
      (handleCommand saveOk raw kb).reply =
        renderAliasReply added skipped ((g.synonyms ++ added).headD []) ∧
      added.count a = 1 ∧
      skipped.count a =
        (aliasesOf (joinSpace ((cmdParts raw).tail.drop (idx + 1)))).count a
          - 1 := by
  have hne : aliasesOf (joinSpace ((cmdParts raw).tail.drop (idx + 1))) ≠ []
      := by
    intro hc
    rw [hc] at hmem
    cases hmem
  have hd : handleCommand saveOk raw kb = aliasCase (cmdParts raw) kb := by
    unfold handleCommand
    exact dispatch_eq_alias hcmd
  obtain ⟨g, hget, _, _⟩ := findKeyword_some hfk
  have hgilt : gi < kb.keyword_groups.length := by
    rcases List.getElem?_eq_some.mp hget with ⟨h, _⟩
    exact h
  have hna : normalizeString a = a := aliasesOf_normalized hmem
  obtain ⟨added, skipped, heq, hadd, hskip, hcov⟩ :=
    aliasLoop_spec (aliasesOf (joinSpace ((cmdParts raw).tail.drop (idx + 1))))
      kb gi g hget (fun b hb => aliasesOf_normalized hb)
  obtain ⟨hc1, hc2⟩ :=
    aliasLoop_count_new
      (aliasesOf (joinSpace ((cmdParts raw).tail.drop (idx + 1))))
      kb gi g a hget hnew hna hmem
  rw [heq] at hc1 hc2
  refine ⟨g, added, skipped, hget, ?_, ?_, by simpa using hc1,
    by simpa using hc2⟩
  · rw [hd, aliasCase_run hidx hfk hne, heq]
  · rw [hd, aliasCase_run hidx hfk hne, heq]
    dsimp only
    rw [groupHeadOf_set hgilt]

theorem alias_duplicate_once_witness :
    ∃ g added skipped,
      kbTwo.keyword_groups[0]? = some g ∧
      (handleCommand true (codes ("/alias 退貨 += 新品,新品")) kbTwo).kb =
        { kbTwo with keyword_groups := (kbTwo.keyword_groups.set 0
            ⟨g.synonyms ++ added, g.response⟩) } ∧
      (handleCommand true (codes ("/alias 退貨 += 新品,新品")) kbTwo).reply =
        renderAliasReply added skipped ((g.synonyms ++ added).headD []) ∧
      added.count (codes ("新品")) = 1 ∧
      skipped.count (codes ("新品")) =
        (aliasesOf (joinSpace
          ((cmdParts (codes ("/alias 退貨 += 新品,新品"))).tail.drop
            (1 + 1)))).count (codes ("新品")) - 1 :=
  alias_duplicate_once true (codes ("/alias 退貨 += 新品,新品")) kbTwo
    1 0 0 (codes ("新品")) (by decide) (by decide) (by decide) (by decide)
    (by decide)

/-- The in-memory mutation and the decision to call save do not depend
on the save outcome: only the reply text does. -/
theorem dispatch_state_indep (parts : List Str) (kb : KnowledgeBase) :
    (dispatch true parts kb).kb = (dispatch false parts kb).kb ∧
    (dispatch true parts kb).saved = (dispatch false parts kb).saved := by
  unfold dispatch addCase deleteCase replaceCase aliasCase listCase
  constructor
  · simp only [apply_ite CmdResult.kb]
  · simp only [apply_ite CmdResult.saved]

theorem concat_ne_saveFail (p s k : Str)
    (h : saveFailMsg.length < p.length + s.length) :
    p ++ k ++ s ≠ saveFailMsg := by
  intro he
  have hl := congrArg List.length he
  simp only [List.length_append] at hl
  omega

theorem deleteCase_found_eq (saveOk : Bool) (parts : List Str)
    (kb : KnowledgeBase) (gi ki : Nat) (hlen : parts.tail.length = 1)
    (hfk : findKeyword kb (parts.tail.headD []) = some (gi, ki)) :
    deleteCase saveOk parts kb =
      (if (kb.keyword_groups.getD gi ⟨[], []⟩).synonyms.eraseIdx ki = [] then
        ⟨if saveOk then deleteGroupMsg (parts.tail.headD [])
           else saveFailMsg,
         { kb with keyword_groups := kb.keyword_groups.eraseIdx gi }, true⟩
      else
        ⟨if saveOk then deleteKeywordMsg (parts.tail.headD [])
           else saveFailMsg,
         { kb with keyword_groups := (kb.keyword_groups.set gi
             ⟨(kb.keyword_groups.getD gi ⟨[], []⟩).synonyms.eraseIdx ki,
              (kb.keyword_groups.getD gi ⟨[], []⟩).response⟩) }, true⟩) := by
  unfold deleteCase
  dsimp only
  rw [if_neg (by simp [hlen]), if_neg (by rw [hfk]; simp)]
  simp only [hfk, Option.getD_some]

/-- C4 (amended): /add, /delete and /replace call save on their
mutating paths and report the dedicated failure message, distinct from
the success message, exactly when save fails; the in-memory mutation is
applied either way.  /alias also calls save when it adds a synonym, but
its reply ignores the save outcome. -/
theorem save_failure_reporting (raw : Str) (kb : KnowledgeBase) :
    ((handleCommand true raw kb).kb = (handleCommand false raw kb).kb ∧
     (handleCommand true raw kb).saved = (handleCommand false raw kb).saved) ∧
    ((cmdParts raw).headD [] = codes ("/add") →
      ¬ (cmdParts raw).tail.length < 2 →
      findKeyword kb ((cmdParts raw).tail.headD []) = none →
      (handleCommand false raw kb).saved = true ∧
      (handleCommand false raw kb).reply = saveFailMsg ∧
      (handleCommand true raw kb).reply ≠ saveFailMsg) ∧
    ((cmdParts raw).headD [] = codes ("/delete") →
      (cmdParts raw).tail.length = 1 →
      ∀ gi ki,
        findKeyword kb ((cmdParts raw).tail.headD []) = some (gi, ki) →
        (handleCommand false raw kb).saved = true ∧
        (handleCommand false raw kb).reply = saveFailMsg ∧
        (handleCommand true raw kb).reply ≠ saveFailMsg) ∧
    ((cmdParts raw).headD [] = codes ("/replace") →
      ¬ (cmdParts raw).tail.length < 2 →
      ∀ gi ki,
        findKeyword kb ((cmdParts raw).tail.headD []) = some (gi, ki) →
        (handleCommand false raw kb).saved = true ∧
        (handleCommand false raw kb).reply = saveFailMsg ∧
        (handleCommand true raw kb).reply ≠ saveFailMsg) ∧
    ((cmdParts raw).headD [] = codes ("/alias") →
      (handleCommand false raw kb).reply = (handleCommand true raw kb).reply)
    := by
  refine ⟨dispatch_state_indep (cmdParts raw) kb, ?_, ?_, ?_, ?_⟩
  · intro hcmd hlen hfk
    have hdT : handleCommand true raw kb = addCase true (cmdParts raw) kb :=
      dispatch_eq_add hcmd
    have hdF : handleCommand false raw kb = addCase false (cmdParts raw) kb :=
      dispatch_eq_add hcmd
    refine ⟨?_, ?_, ?_⟩
    · rw [hdF]
      unfold addCase
      dsimp only
      rw [if_neg hlen, if_neg (by rw [hfk]; simp)]
    · rw [hdF]
      unfold addCase
      dsimp only
      rw [if_neg hlen, if_neg (by rw [hfk]; simp)]
      rfl
    · rw [hdT]
      unfold addCase
      dsimp only
      rw [if_neg hlen, if_neg (by rw [hfk]; simp)]
      show addSuccessMsg ((cmdParts raw).tail.headD []) ≠ saveFailMsg
      unfold addSuccessMsg
      exact concat_ne_saveFail _ _ _ (by decide)
  · intro hcmd hlen gi ki hfk
    have hdT : handleCommand true raw kb =
        deleteCase true (cmdParts raw) kb := dispatch_eq_delete hcmd
    have hdF : handleCommand false raw kb =
        deleteCase false (cmdParts raw) kb := dispatch_eq_delete hcmd
    rw [hdT, hdF, deleteCase_found_eq true (cmdParts raw) kb gi ki hlen hfk,
      deleteCase_found_eq false (cmdParts raw) kb gi ki hlen hfk]
    by_cases hs : (kb.keyword_groups.getD gi
        ⟨[], []⟩).synonyms.eraseIdx ki = []
    · rw [if_pos hs, if_pos hs]
      refine ⟨rfl, rfl, ?_⟩
      show deleteGroupMsg ((cmdParts raw).tail.headD []) ≠ saveFailMsg
      unfold deleteGroupMsg
      exact concat_ne_saveFail _ _ _ (by decide)
    · rw [if_neg hs, if_neg hs]
      refine ⟨rfl, rfl, ?_⟩
      show deleteKeywordMsg ((cmdParts raw).tail.headD []) ≠ saveFailMsg
      unfold deleteKeywordMsg
      exact concat_ne_saveFail _ _ _ (by decide)
  · intro hcmd hlen gi ki hfk
    have hdT : handleCommand true raw kb =
        replaceCase true (cmdParts raw) kb := dispatch_eq_replace hcmd
    have hdF : handleCommand false raw kb =
        replaceCase false (cmdParts raw) kb := dispatch_eq_replace hcmd
    refine ⟨?_, ?_, ?_⟩
    · rw [hdF]
      unfold replaceCase
      dsimp only
      rw [if_neg hlen, if_neg (by rw [hfk]; simp)]
    · rw [hdF]
      unfold replaceCase
      dsimp only
      rw [if_neg hlen, if_neg (by rw [hfk]; simp)]
      rfl
    · rw [hdT]
      unfold replaceCase
      dsimp only
      rw [if_neg hlen, if_neg (by rw [hfk]; simp)]
      show replaceSuccessMsg (kb.keyword_groups.getD
        ((findKeyword kb ((cmdParts raw).tail.headD [])).getD (0, 0)).1
        ⟨[], []⟩).synonyms ≠ saveFailMsg
      unfold replaceSuccessMsg
      exact concat_ne_saveFail _ _ _ (by decide)
  · intro hcmd
    have hdT : handleCommand true raw kb = aliasCase (cmdParts raw) kb :=
      dispatch_eq_alias hcmd
    have hdF : handleCommand false raw kb = aliasCase (cmdParts raw) kb :=
      dispatch_eq_alias hcmd
    rw [hdT, hdF]

/-- C4 counterexample: on /alias the save outcome is ignored, so a
failed save still yields the normal reply, not the failure message. -/
theorem save_failure_reporting_cex :
    (handleCommand false (codes ("/alias greet += hi")) kbGreet).saved =
      true ∧
    (handleCommand false (codes ("/alias greet += hi")) kbGreet).reply =
      codes ("已新增同義詞：hi 至「greet」群組。") ∧
    (handleCommand false (codes ("/alias greet += hi")) kbGreet).reply ≠
      saveFailMsg := by decide

theorem save_failure_reporting_witness :
    (handleCommand false (codes ("/add 安裝 請參考手冊")) kbTwo).saved =
      true ∧
    (handleCommand false (codes ("/add 安裝 請參考手冊")) kbTwo).reply =
      saveFailMsg ∧
    (handleCommand true (codes ("/add 安裝 請參考手冊")) kbTwo).reply ≠
      saveFailMsg :=
  (save_failure_reporting (codes ("/add 安裝 請參考手冊")) kbTwo).2.1
    (by decide) (by decide) (by decide)
end AicsBot
